import Mathlib

/-!
# A shallow embedding of the `matching-engine` order-book core

This file embeds the Python sources `quote.py`, `level.py`, `side.py` and
`book.py` of the `matching-engine` repository into Lean and proves or refutes
the specification claims about them.

Modelling conventions:
* Python `float` prices become `ℚ`; Python `int` quantities become `ℤ`;
  an order's `price` is `Option ℚ` because the parser stores `None` for
  market orders.
* The intrusive doubly linked queue of a `Level` (fields `head`, `tail` and
  the per-order `next`/`prev` links) is modelled as a `List Order`, head
  first.  Object identity of orders (Python `==` on `Order` objects) is
  modelled by equality of the `timestamp` field, which the source documents
  as a unique identifier of an order.
* The binary search tree of a `BookSide` (fields `left`, `right`, `parent`
  of `Level`) is modelled as an inductive `Tree`.  The pointer-walking
  loops of `side.py` (`register_order`, `min_level`, `max_level`,
  `next_level`, `remove_level`) become the equivalent structural recursions:
  the bottom-up parent walk of `next_level` is rendered as the standard
  top-down search that tracks the nearest ancestor whose left subtree holds
  the argument, and `remove_level`'s splice of the in-order successor is
  rendered as delete-min of the right subtree.  A Python reference to a
  level inside a tree is modelled by the level's `price` used as a search
  key (the sides never create two levels with one price).
* `print(...)` output is modelled as a list of `Event`s carried in the
  `OrderBook` state.
* Python runtime errors (`AttributeError` on `None` dereference,
  `TypeError` on comparing `None` with a number, `ZeroDivisionError`,
  `IndexError`, `ValueError`) are modelled by an `Option` result being
  `none`.  The unbounded `while` loops of `process_limit_order` and
  `process_market_order` take an explicit fuel argument; exhausted fuel also
  yields `none`.
-/

namespace Eng

/-- `quote.py`, class `Order` (the data of its base class `Quote` without the
intrusive `next`/`prev` queue links, which the list model replaces). -/
structure Order where
  is_limit : Bool
  is_buy : Bool
  price : Option ℚ
  qty : ℤ
  timestamp : ℕ
deriving DecidableEq, Repr

/-- `Order.total`: `qty * price` for a limit order, `None` for a market
order.  (For the state `is_limit = true` with `price = none`, never produced
by the parser, the source would raise `TypeError`; the model returns `none`.) -/
def Order.total (o : Order) : Option ℚ :=
  if o.is_limit then o.price.map (fun p => (o.qty : ℚ) * p) else none

/-- `level.py`, class `Level`: the FIFO queue of resting orders at one price,
with the queue rendered as a list (head first) and the BST links factored
out into `Tree` below. -/
structure Level where
  price : ℚ
  is_bid : Bool
  total_qty : ℤ
  queue : List Order
deriving DecidableEq, Repr

/-- `Level.__init__`: a fresh level holding exactly the given limit order.
The price argument is the order's price (`limit_order.price`), passed
separately because the model stores it as a bare `ℚ`. -/
def Level.init (o : Order) (p : ℚ) : Level :=
  ⟨p, o.is_buy, o.qty, [o]⟩

/-- `Level.enqueue_order`: append at the tail, add the quantity. -/
def Level.enqueue_order (lvl : Level) (o : Order) : Level :=
  { lvl with total_qty := lvl.total_qty + o.qty, queue := lvl.queue ++ [o] }

/-- `Level.dequeue_order`: remove and return the head order, subtracting its
quantity.  On an empty queue the source dereferences `None`
(`order.qty` with `order = None`), modelled as `none`. -/
def Level.dequeue_order (lvl : Level) : Option (Level × Order) :=
  match lvl.queue with
  | [] => none
  | h :: rest => some ({ lvl with total_qty := lvl.total_qty - h.qty, queue := rest }, h)

/-- The scan of `Level.insert_order`: advance `pointer` from the head while
`pointer.timestamp >= limit_order.timestamp`, then splice the new order in
front of `pointer`.  Running past the tail evaluates `None.timestamp`,
modelled as `none`. -/
def insertScan (o : Order) : List Order → Option (List Order)
  | [] => none
  | c :: rest =>
    if c.timestamp ≥ o.timestamp then (insertScan o rest).map (fun q => c :: q)
    else some (o :: c :: rest)

/-- `Level.insert_order`: enqueue when the new order's timestamp is at least
the tail's, otherwise splice via the scan.  An empty queue evaluates
`None.timestamp` on the tail; a scan that stops at the head leaves
`aux = None` and the source then evaluates `None.next`; both are `none`. -/
def Level.insert_order (lvl : Level) (o : Order) : Option Level :=
  match lvl.queue.getLast? with
  | none => none
  | some tl =>
    if o.timestamp ≥ tl.timestamp then some (lvl.enqueue_order o)
    else
      match lvl.queue with
      | [] => none
      | h :: rest =>
        if h.timestamp ≥ o.timestamp then
          (insertScan o rest).map
            (fun q => { lvl with total_qty := lvl.total_qty + o.qty, queue := h :: q })
        else none

/-- The scan of `Level.remove_order`: walk `pointer` until it is the order
being removed (object identity, modelled by `timestamp`), then relink the
neighbours around it.  Running past the tail evaluates `None.next`,
modelled as `none`. -/
def removeScan (o : Order) : List Order → Option (List Order)
  | [] => none
  | c :: rest =>
    if c.timestamp = o.timestamp then some rest
    else (removeScan o rest).map (fun q => c :: q)

/-- `Level.remove_order`: dequeue when the order is the head, otherwise
subtract `limit_order.qty` and splice it out of the middle of the queue. -/
def Level.remove_order (lvl : Level) (o : Order) : Option Level :=
  match lvl.queue with
  | [] => none
  | h :: _ =>
    if h.timestamp = o.timestamp then (lvl.dequeue_order).map (fun r => r.1)
    else
      (removeScan o lvl.queue).map
        (fun q => { lvl with total_qty := lvl.total_qty - o.qty, queue := q })

/-- The BST of `side.py` over `Level`s, replacing the `left`/`right`/`parent`
pointers of `Level`. -/
inductive Tree where
  | nil : Tree
  | node (left : Tree) (lvl : Level) (right : Tree) : Tree
deriving DecidableEq, Repr

/-- In-order listing of the levels of a tree (ascending price on a well
formed side). -/
def Tree.toList : Tree → List Level
  | .nil => []
  | .node l v r => l.toList ++ v :: r.toList

/-- Descend `left` links to the least level, `min_level`'s loop; the first
argument of the loop is the subtree already entered, the second the level at
which the descent currently stands. -/
def Tree.minD : Tree → Level → Level
  | .nil, d => d
  | .node l v _, _ => Tree.minD l v

/-- Descend `right` links to the greatest level, `max_level`'s loop. -/
def Tree.maxD : Tree → Level → Level
  | .nil, d => d
  | .node _ v r, _ => Tree.maxD r v

/-- Search a level by its price, the model of following a stored Python
reference to a level inside the side's tree. -/
def Tree.findLevel (p : ℚ) : Tree → Option Level
  | .nil => none
  | .node l v r =>
    if p < v.price then l.findLevel p
    else if v.price < p then r.findLevel p
    else some v

/-- Whether a level with the given price is in the tree. -/
def Tree.containsP (p : ℚ) (t : Tree) : Bool :=
  (t.findLevel p).isSome

/-- Rewrite the level found at price `p` in place (the model of mutating the
fields of a level through a Python reference). -/
def Tree.modify (p : ℚ) (f : Level → Level) : Tree → Tree
  | .nil => .nil
  | .node l v r =>
    if p < v.price then .node (l.modify p f) v r
    else if v.price < p then .node l v (r.modify p f)
    else .node l (f v) r

/-- As `Tree.modify` but with a rewrite that can fail (a queue operation
that raises), propagating the failure; a miss is also `none` (the source
holds a direct pointer, so a miss cannot occur in the modelled flows). -/
def Tree.modifyM (p : ℚ) (f : Level → Option Level) : Tree → Option Tree
  | .nil => none
  | .node l v r =>
    if p < v.price then (l.modifyM p f).map (fun t => Tree.node t v r)
    else if v.price < p then (r.modifyM p f).map (fun t => Tree.node l v t)
    else (f v).map (fun v' => Tree.node l v' r)

/-- `BookSide.next_level`: the in-order successor of the level at price `p`.
The source walks `parent` links upward from the level; structurally this is
the top-down search remembering the nearest node whose left subtree holds
the argument, with `min_level(level.right)` when a right subtree exists. -/
def Tree.nextLevel (p : ℚ) : Tree → Option Level
  | .nil => none
  | .node l v r =>
    if v.price = p then
      match r with
      | .nil => none
      | .node rl rv _ => some (rl.minD rv)
    else if p < v.price then
      match l.nextLevel p with
      | some x => some x
      | none => some v
    else r.nextLevel p

/-- Splice out the least node, the `replace_level(next_level, next_level.right)`
step of `BookSide.remove_level` applied inside the right subtree. -/
def Tree.deleteMin : Tree → Tree
  | .nil => .nil
  | .node .nil _ r => r
  | .node (.node ll lv lr) v r => .node (Tree.deleteMin (.node ll lv lr)) v r

/-- `BookSide.remove_level` located at the level with price `p`: a node with
at most one child is spliced out via `replace_level`; a node with two
children is replaced by its in-order successor (the least level of the right
subtree), whose own position is spliced out first. -/
def Tree.removeLevel (p : ℚ) : Tree → Tree
  | .nil => .nil
  | .node l v r =>
    if p < v.price then .node (l.removeLevel p) v r
    else if v.price < p then .node l v (r.removeLevel p)
    else
      match l, r with
      | .nil, _ => r
      | _, .nil => l
      | _, .node rl rv rr => .node l ((rl).minD rv) (Tree.deleteMin (.node rl rv rr))

/-- The search-and-link loop of `BookSide.register_order`: descend comparing
prices; on an equal price enqueue into (or, with the flag set, insert
respecting time into) the existing level; at a missing child link a fresh
level there.  `p` is the order's price (`some`, checked by the caller). -/
def treeRegister (o : Order) (p : ℚ) (respect : Bool) : Tree → Option Tree
  | .nil => some (.node .nil (Level.init o p) .nil)
  | .node l v r =>
    if v.price > p then (treeRegister o p respect l).map (fun t => Tree.node t v r)
    else if v.price < p then (treeRegister o p respect r).map (fun t => Tree.node l v t)
    else
      if respect then (v.insert_order o).map (fun v' => Tree.node l v' r)
      else some (Tree.node l (v.enqueue_order o) r)

/-- `side.py`, class `BookSide`. -/
structure BookSide where
  root : Tree
  is_bid : Bool
  total_qty : ℤ
deriving DecidableEq, Repr

/-- `BookSide.register_order(limit_order, timestamp)`: add the order's
quantity to the side total, then search-and-link.  A `None` price would make
the source's price comparisons raise `TypeError` (or poison the created
level); the parser never produces such an order, and the model returns
`none`. -/
def BookSide.register_order (s : BookSide) (o : Order) (respect : Bool) :
    Option BookSide :=
  match o.price with
  | none => none
  | some p =>
    (treeRegister o p respect s.root).map
      (fun t => { s with root := t, total_qty := s.total_qty + o.qty })

/-- `BookSide.min_level()` from the root. -/
def BookSide.min_level (s : BookSide) : Option Level :=
  match s.root with
  | .nil => none
  | .node l v _ => some (l.minD v)

/-- `BookSide.max_level()` from the root. -/
def BookSide.max_level (s : BookSide) : Option Level :=
  match s.root with
  | .nil => none
  | .node _ v r => some (r.maxD v)

/-- `BookSide.next_level` by the level's price. -/
def BookSide.next_level (s : BookSide) (p : ℚ) : Option Level :=
  s.root.nextLevel p

/-- An observable output of the core: one printed line. -/
inductive Event where
  | trade (price : Option ℚ) (qty : ℤ) : Event
  | bookingFailed : Event
deriving DecidableEq, Repr

/-- `book.py`, class `OrderBook`, together with the printed output. -/
structure OrderBook where
  bid : BookSide
  ask : BookSide
  events : List Event
deriving DecidableEq, Repr

/-- The side whose `is_bid` flag is `b`. -/
def OrderBook.sideOf (bk : OrderBook) (b : Bool) : BookSide :=
  if b then bk.bid else bk.ask

/-- Rewrite the side whose `is_bid` flag is `b`. -/
def OrderBook.updSide (bk : OrderBook) (b : Bool) (f : BookSide → BookSide) :
    OrderBook :=
  if b then { bk with bid := f bk.bid } else { bk with ask := f bk.ask }

/-- Rewrite the root tree of the side whose `is_bid` flag is `b`. -/
def OrderBook.updRoot (bk : OrderBook) (b : Bool) (f : Tree → Tree) : OrderBook :=
  bk.updSide b (fun s => { s with root := f s.root })

/-- `OrderBook.print_match` output. -/
def OrderBook.emit (bk : OrderBook) (e : Event) : OrderBook :=
  { bk with events := bk.events ++ [e] }

/-- The result of the matching loop of `OrderBook.trade_at_level`. -/
structure LoopRes where
  traded : ℤ
  remaining : ℤ
  level_total : ℤ
  queue : List Order
deriving DecidableEq, Repr

/-- The `while` loop of `OrderBook.trade_at_level`, walking the level's
queue: a resting order with quantity at most the order's remaining quantity
is dequeued (`level.dequeue_order()`, which subtracts its quantity from the
level total); a larger one has the remaining quantity subtracted from its
own quantity and from the level total in place, zeroing the order.
Arguments: the order's remaining quantity, the level's `total_qty`, the
level's queue. -/
def tradeLoop (m tot : ℤ) : List Order → LoopRes
  | [] => ⟨0, m, tot, []⟩
  | c :: rest =>
    if 0 < m then
      if c.qty ≤ m then
        let w := tradeLoop (m - c.qty) (tot - c.qty) rest
        ⟨c.qty + w.traded, w.remaining, w.level_total, w.queue⟩
      else ⟨m, 0, tot - m, { c with qty := c.qty - m } :: rest⟩
    else ⟨0, m, tot, c :: rest⟩

/-- `OrderBook.trade_at_level(market_order, level)`: run the matching loop,
write the mutated level back, subtract the traded quantity from the side of
the level, remove the level when its `total_qty` reached zero, print one
trade line for the level's price and the traded quantity, and return the
order with its remaining quantity. -/
def OrderBook.trade_at_level (bk : OrderBook) (o : Order) (lvl : Level) :
    OrderBook × Order :=
  let w := tradeLoop o.qty lvl.total_qty lvl.queue
  let lvl' : Level := { lvl with total_qty := w.level_total, queue := w.queue }
  let bk1 := bk.updRoot lvl.is_bid (Tree.modify lvl.price (fun _ => lvl'))
  let bk2 := bk1.updSide lvl.is_bid (fun s => { s with total_qty := s.total_qty - w.traded })
  let bk3 := if lvl'.total_qty = 0 then bk2.updRoot lvl.is_bid (Tree.removeLevel lvl.price) else bk2
  (bk3.emit (.trade (some lvl.price) w.traded), { o with qty := w.remaining })

/-- The counterparty scan of `OrderBook.trade_limit_order`: advance past
every resting order whose total value equals the incoming order's total
value or whose quantity equals the incoming order's quantity; `none` means
the scan ran off the tail (the source then returns the order unmatched). -/
def findCounterparty (o : Order) : List Order → Option Order
  | [] => none
  | c :: rest =>
    if c.total = o.total ∨ c.qty = o.qty then findCounterparty o rest
    else some c

/-- `OrderBook.reallocate_order(order, origin_level)`: remove the order from
its origin level (writing the shrunken level back, without removing it even
when emptied and without touching the side totals) and register the order
anew on its own side respecting its timestamp. -/
def OrderBook.reallocate_order (bk : OrderBook) (o : Order) (origin : Level) :
    Option OrderBook :=
  match origin.remove_order o with
  | none => none
  | some origin' =>
    let bk1 := bk.updRoot origin.is_bid (Tree.modify origin.price (fun _ => origin'))
    if o.is_buy then
      (bk1.bid.register_order o true).map (fun s => { bk1 with bid := s })
    else
      (bk1.ask.register_order o true).map (fun s => { bk1 with ask := s })

/-- `OrderBook.trade_limit_order(limit_order, level)`.  An equal price
delegates to `trade_at_level`.  Otherwise the counterparty scan runs (on an
empty queue the source evaluates `None.total()`, modelled `none`); with no
counterparty the order comes back unmatched.  With a counterparty, the party
with the larger total value survives with quantity difference
`counterparty.qty - limit_order.qty` (resting case) or `|difference|`
(incoming case) and blended price `|total difference| / |quantity
difference|`; the consumed party's price and quantity are printed.  A
surviving resting order is mutated in place and reallocated; a consumed
resting order is removed after the side total is reduced by the *new*
quantity of the incoming order, and its level is removed when emptied. -/
def OrderBook.trade_limit_order (bk : OrderBook) (o : Order) (lvl : Level) :
    Option (OrderBook × Order) :=
  if o.price = some lvl.price then some (bk.trade_at_level o lvl)
  else
    match lvl.queue with
    | [] => none
    | _ :: _ =>
      match findCounterparty o lvl.queue with
      | none => some (bk, o)
      | some c =>
        match c.total, o.total with
        | some ct, some ot =>
          let new_qty : ℤ := |c.qty - o.qty|
          let new_total : ℚ := |ct - ot|
          if new_qty = 0 then none
          else if ot < ct then
            let c' : Order := { c with price := some (new_total / (new_qty : ℚ)),
                                       qty := c.qty - o.qty }
            let lvlMut : Level :=
              { lvl with queue :=
                  lvl.queue.map (fun x => if x.timestamp = c.timestamp then c' else x) }
            match bk.reallocate_order c' lvlMut with
            | none => none
            | some bk2 =>
              some (bk2.emit (.trade o.price o.qty), { o with qty := 0 })
          else
            let o' : Order := { o with price := some (new_total / (new_qty : ℚ)),
                                       qty := new_qty }
            let bk1 := bk.emit (.trade c.price c.qty)
            let bk2 := bk1.updSide c.is_buy
              (fun s => { s with total_qty := s.total_qty - o'.qty })
            match lvl.remove_order c with
            | none => none
            | some lvlAfter =>
              let bk3 := bk2.updRoot c.is_buy (Tree.modify lvl.price (fun _ => lvlAfter))
              let bk4 := if lvlAfter.queue = [] then
                  bk3.updRoot c.is_buy (Tree.removeLevel lvl.price)
                else bk3
              some (bk4, o')
        | _, _ => none

/-- Register the order on its own side, `order_side.register_order(order)`. -/
def OrderBook.registerOwn (bk : OrderBook) (o : Order) : Option OrderBook :=
  if o.is_buy then
    (bk.bid.register_order o false).map (fun s => { bk with bid := s })
  else
    (bk.ask.register_order o false).map (fun s => { bk with ask := s })

/-- The `while order.qty > 0` loop of `OrderBook.process_limit_order`:
book on the order's own side when the levels are exhausted or the price no
longer crosses, trade otherwise and advance to the successor on the
counterparty side.  A `None` price in the crossing test raises in the
source. -/
def OrderBook.limitLoop : ℕ → OrderBook → Order → Option Level → Option OrderBook
  | 0, _, _, _ => none
  | Nat.succ fuel, bk, o, lvlOpt =>
    if 0 < o.qty then
      match lvlOpt with
      | none => bk.registerOwn o
      | some lvl =>
        match o.price with
        | none => none
        | some p =>
          if o.is_buy ∧ p < lvl.price then bk.registerOwn o
          else if (¬ o.is_buy) ∧ p > lvl.price then bk.registerOwn o
          else
            match bk.trade_limit_order o lvl with
            | none => none
            | some (bk', o') =>
              OrderBook.limitLoop fuel bk' o'
                ((bk'.sideOf (!o.is_buy)).next_level lvl.price)
    else some bk

/-- `OrderBook.process_limit_order(order)`: with no quantity on the
counterparty side, book immediately; otherwise walk the counterparty levels
from the best one. -/
def OrderBook.process_limit_order (fuel : ℕ) (bk : OrderBook) (o : Order) :
    Option OrderBook :=
  if (bk.sideOf (!o.is_buy)).total_qty = 0 then bk.registerOwn o
  else
    let lvl0 := if o.is_buy then bk.ask.min_level else bk.bid.max_level
    OrderBook.limitLoop fuel bk o lvl0

/-- The `while order.qty > 0` loop of `OrderBook.process_market_order`:
trade at the level, advance to the successor on the counterparty side, stop
when none is left. -/
def OrderBook.marketLoop : ℕ → OrderBook → Order → Level → Option OrderBook
  | 0, _, _, _ => none
  | Nat.succ fuel, bk, o, lvl =>
    if 0 < o.qty then
      let r := bk.trade_at_level o lvl
      match (r.1.sideOf (!o.is_buy)).next_level lvl.price with
      | none => some r.1
      | some l' => OrderBook.marketLoop fuel r.1 r.2 l'
    else some bk

/-- `OrderBook.process_market_order(order)`: with no best level on the
counterparty side print the booking failure and drop the order; otherwise
walk the counterparty levels from the best one. -/
def OrderBook.process_market_order (fuel : ℕ) (bk : OrderBook) (o : Order) :
    Option OrderBook :=
  match (if o.is_buy then bk.ask.min_level else bk.bid.max_level) with
  | some lvl => OrderBook.marketLoop fuel bk o lvl
  | none => some (bk.emit .bookingFailed)

/-- `OrderBook.add_order(order)`: dispatch on the order kind. -/
def OrderBook.add_order (fuel : ℕ) (bk : OrderBook) (o : Order) :
    Option OrderBook :=
  if o.is_limit then bk.process_limit_order fuel o
  else bk.process_market_order fuel o

/-- `OrderBook.__init__`: two empty sides, nothing printed yet. -/
def OrderBook.init : OrderBook :=
  ⟨⟨.nil, true, 0⟩, ⟨.nil, false, 0⟩, []⟩

/-- All levels of a tree satisfy the boolean predicate. -/
def Tree.allB (f : Level → Bool) : Tree → Bool
  | .nil => true
  | .node l v r => f v && l.allB f && r.allB f

/-- The binary-search-tree invariant of a side: strictly smaller prices to
the left, strictly greater prices to the right, recursively. -/
def Tree.bst : Tree → Bool
  | .nil => true
  | .node l v r =>
    l.allB (fun x => decide (x.price < v.price)) &&
    r.allB (fun x => decide (v.price < x.price)) && l.bst && r.bst

/-- The sum of the `total_qty` fields of all levels in a tree. -/
def Tree.sumQty : Tree → ℤ
  | .nil => 0
  | .node l v r => l.sumQty + v.total_qty + r.sumQty

/-- The level-exhaustive matching walk exactly as the claim words it, for
comparison with `tradeLoop`: walk the queue from the head while the order
has remaining quantity; a resting order with quantity at most the remaining
quantity is dequeued entirely and its quantity added to the traded total;
a resting order with larger quantity is reduced in place by the remaining
quantity, which becomes zero.  Returns (traded total, remaining quantity,
resulting queue). -/
def levelWalk (m : ℤ) : List Order → ℤ × ℤ × List Order
  | [] => (0, m, [])
  | c :: rest =>
    if 0 < m then
      if c.qty ≤ m then
        let w := levelWalk (m - c.qty) rest
        (c.qty + w.1, w.2.1, w.2.2)
      else (m, 0, { c with qty := c.qty - m } :: rest)
    else (0, m, c :: rest)

/-- Split a character list at spaces, dropping empty pieces: the model of
Python `str.split()` for space-separated input.  The accumulator carries the
current token reversed. -/
def splitAux : List Char → List Char → List String
  | [], acc => if acc = [] then [] else [String.mk acc.reverse]
  | c :: cs, acc =>
    if c = ' ' then
      if acc = [] then splitAux cs [] else String.mk acc.reverse :: splitAux cs []
    else splitAux cs (c :: acc)

/-- `quote.lower().split()`: lowercase the whole line, then split at
whitespace. -/
def tokens (s : String) : List String :=
  splitAux (s.data.map Char.toLower) []

/-- Read a run of decimal digits, most significant first. -/
def natOfDigits : List Char → ℕ → Option ℕ
  | [], acc => some acc
  | c :: cs, acc =>
    if c.isDigit then natOfDigits cs (acc * 10 + (c.toNat - '0'.toNat)) else none

/-- The model of Python `int(...)` on a token: an optional sign followed by
at least one digit; anything else raises `ValueError`, modelled `none`. -/
def intOfTok (t : String) : Option ℤ :=
  match t.data with
  | [] => none
  | '-' :: cs =>
    match cs with
    | [] => none
    | _ => (natOfDigits cs 0).map (fun n => -(n : ℤ))
  | cs => (natOfDigits cs 0).map (fun n => (n : ℤ))

/-- The model of Python `float(...)` on a price token, restricted to the
integer numerals this development exercises (decimal-point parsing is
orthogonal to every claim below). -/
def numQ (t : String) : Option ℚ :=
  (intOfTok t).map (fun n => (n : ℚ))

/-- The field assignments of `Quote.__init__` on the token list
`quote.lower().split()`: `is_limit` iff the first token equals `"limit"`,
`is_buy` iff the second equals `"buy"`; the price is parsed from the third
token only for a limit order; the quantity is parsed from the last token.
Fewer than two tokens (`IndexError`), a missing price token for a limit
order, or a failing numeric parse (`ValueError`) are `none`. -/
def quoteOfTokens (items : List String) (ts : ℕ) : Option Order :=
  match items with
  | t0 :: t1 :: rest =>
    match (if t0 == "limit" then (rest.head?.bind numQ).map some else some none),
          (t0 :: t1 :: rest).getLast?.bind intOfTok with
    | some pr, some q => some ⟨t0 == "limit", t1 == "buy", pr, q, ts⟩
    | _, _ => none
  | _ => none

/-- `Quote.__init__` / `Order.__init__` from a quote line: lowercase, split,
then assign the fields.  The timestamp is supplied by the caller (the source
takes `datetime.now()`). -/
def Order.ofQuote (s : String) (ts : ℕ) : Option Order :=
  quoteOfTokens (tokens s) ts

/-- The first order of the scenario-5 run: `limit sell 9 10`. -/
def oA : Order := ⟨true, false, some 9, 10, 1⟩

/-- The second order of the scenario-5 run: `limit sell 11 10`. -/
def oB : Order := ⟨true, false, some 11, 10, 2⟩

/-- The third order of the scenario-5 run: `limit buy 12 5`. -/
def oC : Order := ⟨true, true, some 12, 5, 3⟩

/-- The scenario-5 submission sequence `limit sell 9 10`, `limit sell 11 10`,
`limit buy 12 5` into an empty book (fuel 10 amply covers the three levels
ever present). -/
def runC1 : Option OrderBook :=
  (OrderBook.init.add_order 10 oA).bind (fun b =>
    (b.add_order 10 oB).bind (fun b2 => b2.add_order 10 oC))

/-! ## Helper lemmas -/

theorem updSide_events (bk : OrderBook) (b : Bool) (f : BookSide → BookSide) :
    (bk.updSide b f).events = bk.events := by
  cases b <;> rfl

theorem updRoot_events (bk : OrderBook) (b : Bool) (f : Tree → Tree) :
    (bk.updRoot b f).events = bk.events := by
  cases b <;> rfl

theorem updSide_sideOf (bk : OrderBook) (b : Bool) (f : BookSide → BookSide) :
    (bk.updSide b f).sideOf b = f (bk.sideOf b) := by
  cases b <;> rfl

theorem updRoot_sideOf (bk : OrderBook) (b : Bool) (f : Tree → Tree) :
    (bk.updRoot b f).sideOf b = { bk.sideOf b with root := f (bk.sideOf b).root } := by
  cases b <;> rfl

/-! ## C7 -/

/-- C7: submitting a market order while the opposing side has no levels
prints exactly the booking failure, prints no trade, and leaves the book
otherwise unchanged (the order is dropped, not booked). -/
theorem C7_market_empty_side (fuel : ℕ) (bk : OrderBook) (o : Order)
    (h : (if o.is_buy then bk.ask else bk.bid).root = Tree.nil) :
    bk.process_market_order fuel o =
      some { bk with events := bk.events ++ [Event.bookingFailed] } := by
  cases hb : o.is_buy <;> rw [hb] at h <;> simp at h <;>
    simp [OrderBook.process_market_order, BookSide.min_level, BookSide.max_level,
      hb, h, OrderBook.emit]

/-- C7 witness: `market sell 5` on the empty book. -/
theorem C7_market_empty_side_witness :
    OrderBook.init.process_market_order 5 ⟨false, false, none, 5, 1⟩ =
      some { OrderBook.init with events := [Event.bookingFailed] } :=
  C7_market_empty_side 5 OrderBook.init ⟨false, false, none, 5, 1⟩ (by decide)

/-! ## C10 -/

/-- C10: every invocation of `trade_at_level` prints exactly one trade line,
reporting the level's price and the quantity the matching loop traded; in
particular, on a level with an empty queue it prints a trade of quantity
zero at the level's price. -/
theorem C10_always_one_event :
    (∀ (bk : OrderBook) (o : Order) (lvl : Level),
      (bk.trade_at_level o lvl).1.events =
        bk.events ++
          [Event.trade (some lvl.price) (tradeLoop o.qty lvl.total_qty lvl.queue).traded])
  ∧ (∀ (bk : OrderBook) (o : Order) (lvl : Level), lvl.queue = [] →
      (bk.trade_at_level o lvl).1.events =
        bk.events ++ [Event.trade (some lvl.price) 0]) := by
  have main : ∀ (bk : OrderBook) (o : Order) (lvl : Level),
      (bk.trade_at_level o lvl).1.events =
        bk.events ++
          [Event.trade (some lvl.price) (tradeLoop o.qty lvl.total_qty lvl.queue).traded] := by
    intro bk o lvl
    simp only [OrderBook.trade_at_level, OrderBook.emit]
    split <;> simp [updRoot_events, updSide_events]
  refine ⟨main, ?_⟩
  intro bk o lvl h
  rw [main bk o lvl, h]
  simp [tradeLoop]

/-- C10 witness: a level with an empty queue prints a zero-quantity trade at
its price. -/
theorem C10_always_one_event_witness :
    (OrderBook.init.trade_at_level ⟨false, true, none, 4, 7⟩ ⟨3, false, 0, []⟩).1.events =
      [Event.trade (some 3) 0] :=
  C10_always_one_event.2 OrderBook.init ⟨false, true, none, 4, 7⟩ ⟨3, false, 0, []⟩ rfl

/-! ## C1 -/

/-- C1 counterexample: on the scenario-5 input the single trade line reports
price 12 (the incoming buy's price), not 9, and no sell order rests at
price 9 afterwards (the level at 9 has an empty queue), so the claim as
stated is false at its own input. -/
theorem C1_counterexample :
    runC1.map OrderBook.events = some [Event.trade (some 12) 5]
  ∧ Event.trade (some (12 : ℚ)) 5 ≠ Event.trade (some 9) 5
  ∧ (runC1.bind (fun b => b.ask.root.findLevel 9)).map Level.queue = some [] :=
  of_decide_eq_true (by with_unfolding_all rfl)

/-- C1 amended: for `limit sell 9 10`, `limit sell 11 10`, `limit buy 12 5`
into an empty book, exactly one trade line is printed, with price 12 and
quantity 5; the surviving resting sell of quantity 5 rests at the blended
price 6; the ask level at price 11 is unchanged; the level at price 9
remains in the tree with an empty queue; the bid side stays empty. -/
theorem C1_amended_run :
    runC1.map OrderBook.events = some [Event.trade (some 12) 5]
  ∧ runC1.bind (fun b => b.ask.root.findLevel 6) =
      some ⟨6, false, 5, [⟨true, false, some 6, 5, 1⟩]⟩
  ∧ runC1.bind (fun b => b.ask.root.findLevel 11) = some ⟨11, false, 10, [oB]⟩
  ∧ (runC1.bind (fun b => b.ask.root.findLevel 9)).map Level.queue = some []
  ∧ runC1.map (fun b => b.bid.root) = some Tree.nil :=
  of_decide_eq_true (by with_unfolding_all rfl)

/-! ## C3 -/

/-- C3 refutation: after the scenario-5 sequence the ask side's `total_qty`
is 25 while the ask levels' `total_qty` fields sum to 20, so the side-total
invariant does not survive `trade_limit_order`'s reallocation branch. -/
theorem C3_totals_diverge :
    runC1.map (fun b => (b.ask.total_qty, b.ask.root.sumQty)) = some (25, 20)
  ∧ (25 : ℤ) ≠ 20 :=
  of_decide_eq_true (by with_unfolding_all rfl)

/-! ## C4 -/

/-- C4 refutation: after the scenario-5 sequence the ask tree still contains
the level at price 9 although its queue is empty — the reallocation branch
of `trade_limit_order` never removes the emptied origin level. -/
theorem C4_empty_level_remains :
    runC1.map (fun b => b.ask.root.containsP 9) = some true
  ∧ (runC1.bind (fun b => b.ask.root.findLevel 9)).map Level.queue = some [] :=
  of_decide_eq_true (by with_unfolding_all rfl)

/-! ## C5 -/

/-- C5 refutation: inserting an order with timestamp 1 into a level whose
queue holds a single (hence non-decreasing) order with timestamp 2 makes
`insert_order`'s scan run past the tail and dereference `None`
(`pointer.timestamp` with `pointer = None`), modelled as `none`. -/
theorem C5_insert_crashes :
    List.Chain' (fun a b => a.timestamp ≤ b.timestamp)
      ([⟨true, true, some 10, 3, 2⟩] : List Order)
  ∧ Level.insert_order ⟨10, true, 3, [⟨true, true, some 10, 3, 2⟩]⟩
      ⟨true, true, some 10, 2, 1⟩ = none := by
  refine ⟨by simp, by decide⟩

/-! ## C2 -/

/-- C2 counterexample: a level whose single resting order (`sell 9 10`) has
neither the incoming order's (`buy 12 5`) total value nor its quantity.  The
claim predicts the incoming order comes back unmatched with its original
quantity 5; the code instead chooses that resting order as counterparty and
the incoming order comes back fully consumed (quantity 0). -/
theorem C2_counterexample :
    (∀ c ∈ ([oA] : List Order), ¬ (c.total = oC.total ∨ c.qty = oC.qty))
  ∧ ((⟨⟨.nil, true, 0⟩, ⟨.node .nil ⟨9, false, 10, [oA]⟩ .nil, false, 10⟩, []⟩ :
        OrderBook).trade_limit_order oC ⟨9, false, 10, [oA]⟩).map (fun r => r.2.qty) =
      some 0
  ∧ (0 : ℤ) ≠ oC.qty :=
  of_decide_eq_true (by with_unfolding_all rfl)

/-- C2 amended: the scan of `trade_limit_order` chooses the *first* resting
order from the head whose total value *differs* from the incoming order's
total value *and* whose quantity *differs* from the incoming order's
quantity; and when every resting order of the level has an equal total value
or an equal quantity, the incoming order is returned unmatched with its
original, unreduced quantity (and the book untouched). -/
theorem C2_amended_scan :
    (∀ (o : Order) (q : List Order),
      findCounterparty o q =
        q.find? (fun c => !decide (c.total = o.total ∨ c.qty = o.qty)))
  ∧ (∀ (bk : OrderBook) (o : Order) (lvl : Level),
      ¬ o.price = some lvl.price → lvl.queue ≠ [] →
      (∀ c ∈ lvl.queue, c.total = o.total ∨ c.qty = o.qty) →
      bk.trade_limit_order o lvl = some (bk, o)) := by
  have h1 : ∀ (o : Order) (q : List Order),
      findCounterparty o q =
        q.find? (fun c => !decide (c.total = o.total ∨ c.qty = o.qty)) := by
    intro o q
    induction q with
    | nil => rfl
    | cons c rest ih =>
      by_cases h : c.total = o.total ∨ c.qty = o.qty
      · simp [findCounterparty, List.find?, h, ih]
      · simp [findCounterparty, List.find?, h]
  refine ⟨h1, ?_⟩
  intro bk o lvl hp hq hall
  have hnone : findCounterparty o lvl.queue = none := by
    rw [h1]
    refine List.find?_eq_none.mpr ?_
    intro x hx
    simp [hall x hx]
  obtain ⟨a, t, he⟩ := List.exists_cons_of_ne_nil hq
  rw [he] at hnone
  simp only [OrderBook.trade_limit_order, if_neg hp, he, hnone]

/-- C2 witness: a resting `sell 9 5` shares the quantity 5 of the incoming
`buy 12 5`, so the scan skips it, runs off the tail, and the order comes
back unmatched and unreduced. -/
theorem C2_amended_scan_witness :
    OrderBook.init.trade_limit_order oC ⟨9, false, 5, [⟨true, false, some 9, 5, 1⟩]⟩ =
      some (OrderBook.init, oC) :=
  C2_amended_scan.2 OrderBook.init oC ⟨9, false, 5, [⟨true, false, some 9, 5, 1⟩]⟩
    (by decide) (by decide) (of_decide_eq_true (by with_unfolding_all rfl))

/-! ## Search-tree lemmas -/

theorem allB_iff (f : Level → Bool) (t : Tree) :
    t.allB f = true ↔ ∀ x ∈ t.toList, f x = true := by
  induction t with
  | nil => simp [Tree.allB, Tree.toList]
  | node l v r ihl ihr =>
    simp only [Tree.allB, Tree.toList, Bool.and_eq_true, ihl, ihr,
      List.mem_append, List.mem_cons]
    constructor
    · rintro ⟨⟨hv, hl⟩, hr⟩ x hx
      rcases hx with hx | hx | hx
      · exact hl x hx
      · exact hx ▸ hv
      · exact hr x hx
    · intro h
      exact ⟨⟨h v (Or.inr (Or.inl rfl)), fun x hx => h x (Or.inl hx)⟩,
        fun x hx => h x (Or.inr (Or.inr hx))⟩

theorem bst_node_iff (l : Tree) (v : Level) (r : Tree) :
    (Tree.node l v r).bst = true ↔
      (∀ x ∈ l.toList, x.price < v.price) ∧ (∀ x ∈ r.toList, v.price < x.price) ∧
      l.bst = true ∧ r.bst = true := by
  simp only [Tree.bst, Bool.and_eq_true, allB_iff, decide_eq_true_eq]
  tauto

theorem minD_mem (t : Tree) : ∀ d : Level, t.minD d = d ∨ t.minD d ∈ t.toList := by
  induction t with
  | nil => intro d; left; rfl
  | node l v r ihl ihr =>
    intro d
    right
    rcases ihl v with h | h
    · simp [Tree.minD, Tree.toList, h]
    · simp only [Tree.minD, Tree.toList, List.mem_append]
      exact Or.inl h

theorem nextLevel_gt (t : Tree) (p : ℚ) (l' : Level)
    (hb : t.bst = true) (h : t.nextLevel p = some l') : p < l'.price := by
  induction t with
  | nil => simp [Tree.nextLevel] at h
  | node l v r ihl ihr =>
    rw [bst_node_iff] at hb
    obtain ⟨hL, hR, bl, br⟩ := hb
    simp only [Tree.nextLevel] at h
    by_cases hvp : v.price = p
    · rw [if_pos hvp] at h
      cases r with
      | nil => simp at h
      | node rl rv rr =>
        simp only [Option.some.injEq] at h
        subst h
        have hm : rl.minD rv ∈ (Tree.node rl rv rr).toList := by
          rcases minD_mem rl rv with h1 | h1
          · simp [Tree.toList, h1]
          · simp only [Tree.toList, List.mem_append]
            exact Or.inl h1
        rw [← hvp]
        exact hR _ hm
    · rw [if_neg hvp] at h
      by_cases hpv : p < v.price
      · rw [if_pos hpv] at h
        cases hnl : l.nextLevel p with
        | some x =>
          rw [hnl] at h
          simp only [Option.some.injEq] at h
          subst h
          exact ihl bl hnl
        | none =>
          rw [hnl] at h
          simp only [Option.some.injEq] at h
          subst h
          exact hpv
      · rw [if_neg hpv] at h
        exact ihr br h

theorem insert_order_price (lvl : Level) (o : Order) (lvl' : Level)
    (h : lvl.insert_order o = some lvl') : lvl'.price = lvl.price := by
  unfold Level.insert_order at h
  split at h
  · exact absurd h (by simp)
  · split at h
    · simp only [Option.some.injEq] at h
      subst h
      rfl
    · split at h
      · exact absurd h (by simp)
      · split at h
        · rw [Option.map_eq_some'] at h
          obtain ⟨q, _, he⟩ := h
          rw [← he]
        · exact absurd h (by simp)

theorem treeRegister_mem (o : Order) (p : ℚ) (b : Bool) :
    ∀ (t t' : Tree), treeRegister o p b t = some t' →
      ∀ x ∈ t'.toList, x ∈ t.toList ∨ x.price = p := by
  intro t
  induction t with
  | nil =>
    intro t' h x hx
    simp only [treeRegister, Option.some.injEq] at h
    subst h
    simp only [Tree.toList, List.mem_append, List.mem_cons, List.not_mem_nil] at hx
    rcases hx with hx | hx | hx
    · exact absurd hx (by simp)
    · right; rw [hx]; rfl
    · exact absurd hx (by simp)
  | node l v r ihl ihr =>
    intro t' h x hx
    simp only [treeRegister] at h
    by_cases h1 : v.price > p
    · rw [if_pos h1, Option.map_eq_some'] at h
      obtain ⟨t1, ht1, he⟩ := h
      subst he
      simp only [Tree.toList, List.mem_append, List.mem_cons] at hx ⊢
      rcases hx with hx | hx | hx
      · rcases ihl t1 ht1 x hx with h2 | h2
        · exact Or.inl (Or.inl h2)
        · exact Or.inr h2
      · exact Or.inl (Or.inr (Or.inl hx))
      · exact Or.inl (Or.inr (Or.inr hx))
    · rw [if_neg h1] at h
      by_cases h2 : v.price < p
      · rw [if_pos h2, Option.map_eq_some'] at h
        obtain ⟨t1, ht1, he⟩ := h
        subst he
        simp only [Tree.toList, List.mem_append, List.mem_cons] at hx ⊢
        rcases hx with hx | hx | hx
        · exact Or.inl (Or.inl hx)
        · exact Or.inl (Or.inr (Or.inl hx))
        · rcases ihr t1 ht1 x hx with h3 | h3
          · exact Or.inl (Or.inr (Or.inr h3))
          · exact Or.inr h3
      · rw [if_neg h2] at h
        have hvp : v.price = p := le_antisymm (not_lt.mp h1) (not_lt.mp h2)
        by_cases h3 : b = true
        · rw [if_pos h3, Option.map_eq_some'] at h
          obtain ⟨v', hv', he⟩ := h
          subst he
          simp only [Tree.toList, List.mem_append, List.mem_cons] at hx ⊢
          rcases hx with hx | hx | hx
          · exact Or.inl (Or.inl hx)
          · right
            rw [hx, insert_order_price v o v' hv', hvp]
          · exact Or.inl (Or.inr (Or.inr hx))
        · rw [if_neg h3] at h
          simp only [Option.some.injEq] at h
          subst h
          simp only [Tree.toList, List.mem_append, List.mem_cons] at hx ⊢
          rcases hx with hx | hx | hx
          · exact Or.inl (Or.inl hx)
          · right
            rw [hx]
            exact hvp
          · exact Or.inl (Or.inr (Or.inr hx))

theorem treeRegister_bst (o : Order) (p : ℚ) (b : Bool) :
    ∀ (t t' : Tree), t.bst = true → treeRegister o p b t = some t' → t'.bst = true := by
  intro t
  induction t with
  | nil =>
    intro t' _ h
    simp only [treeRegister, Option.some.injEq] at h
    subst h
    simp [bst_node_iff, Tree.toList, Tree.bst, Tree.allB]
  | node l v r ihl ihr =>
    intro t' hb h
    rw [bst_node_iff] at hb
    obtain ⟨hL, hR, bl, br⟩ := hb
    simp only [treeRegister] at h
    by_cases h1 : v.price > p
    · rw [if_pos h1, Option.map_eq_some'] at h
      obtain ⟨t1, ht1, he⟩ := h
      subst he
      rw [bst_node_iff]
      refine ⟨?_, hR, ihl t1 bl ht1, br⟩
      intro x hx
      rcases treeRegister_mem o p b l t1 ht1 x hx with h2 | h2
      · exact hL x h2
      · rw [h2]; exact h1
    · rw [if_neg h1] at h
      by_cases h2 : v.price < p
      · rw [if_pos h2, Option.map_eq_some'] at h
        obtain ⟨t1, ht1, he⟩ := h
        subst he
        rw [bst_node_iff]
        refine ⟨hL, ?_, bl, ihr t1 br ht1⟩
        intro x hx
        rcases treeRegister_mem o p b r t1 ht1 x hx with h3 | h3
        · exact hR x h3
        · rw [h3]; exact h2
      · rw [if_neg h2] at h
        by_cases h3 : b = true
        · rw [if_pos h3, Option.map_eq_some'] at h
          obtain ⟨v', hv', he⟩ := h
          subst he
          have hp' : v'.price = v.price := insert_order_price v o v' hv'
          rw [bst_node_iff]
          refine ⟨fun x hx => ?_, fun x hx => ?_, bl, br⟩
          · rw [hp']; exact hL x hx
          · rw [hp']; exact hR x hx
        · rw [if_neg h3] at h
          simp only [Option.some.injEq] at h
          subst h
          rw [bst_node_iff]
          exact ⟨hL, hR, bl, br⟩

theorem register_order_bst (s : BookSide) (o : Order) (b : Bool) (s' : BookSide)
    (hb : s.root.bst = true) (h : s.register_order o b = some s') :
    s'.root.bst = true := by
  unfold BookSide.register_order at h
  cases hp : o.price with
  | none => simp only [hp] at h; exact absurd h (by simp)
  | some p =>
    simp only [hp, Option.map_eq_some'] at h
    obtain ⟨t1, ht1, he⟩ := h
    rw [← he]
    exact treeRegister_bst o p b s.root t1 hb ht1

theorem deleteMin_mem : ∀ (t : Tree), ∀ x ∈ t.deleteMin.toList, x ∈ t.toList := by
  intro t
  induction t with
  | nil => intro x hx; simpa [Tree.deleteMin] using hx
  | node l v r ihl ihr =>
    cases l with
    | nil =>
      intro x hx
      simp only [Tree.deleteMin] at hx
      simp only [Tree.toList, List.mem_append, List.mem_cons]
      exact Or.inr (Or.inr hx)
    | node ll lv lr =>
      intro x hx
      simp only [Tree.deleteMin, Tree.toList, List.mem_append, List.mem_cons] at hx ⊢
      rcases hx with hx | hx | hx
      · have h2 := ihl x hx
        simp only [Tree.toList, List.mem_append, List.mem_cons] at h2
        tauto
      · tauto
      · tauto

theorem deleteMin_bst : ∀ (t : Tree), t.bst = true → t.deleteMin.bst = true := by
  intro t
  induction t with
  | nil => intro h; exact h
  | node l v r ihl ihr =>
    intro hb
    rw [bst_node_iff] at hb
    obtain ⟨hL, hR, bl, br⟩ := hb
    cases l with
    | nil => simpa [Tree.deleteMin] using br
    | node ll lv lr =>
      simp only [Tree.deleteMin]
      rw [bst_node_iff]
      refine ⟨?_, hR, ihl bl, br⟩
      intro x hx
      exact hL x (deleteMin_mem _ x hx)

theorem minD_gt_deleteMin : ∀ (rl : Tree) (rv : Level) (rr : Tree),
    (Tree.node rl rv rr).bst = true →
    ∀ x ∈ (Tree.node rl rv rr).deleteMin.toList, (rl.minD rv).price < x.price := by
  intro rl
  induction rl with
  | nil =>
    intro rv rr hb x hx
    rw [bst_node_iff] at hb
    simp only [Tree.deleteMin] at hx
    simpa [Tree.minD] using hb.2.1 x hx
  | node a b c iha ihc =>
    intro rv rr hb x hx
    rw [bst_node_iff] at hb
    obtain ⟨hL, hR, bl, br⟩ := hb
    have hmem : (Tree.node a b c).minD rv ∈ (Tree.node a b c).toList := by
      rcases minD_mem (Tree.node a b c) rv with h1 | h1
      · rw [h1] at h1 ⊢
        rcases minD_mem a b with h2 | h2
        · simp [Tree.minD, h2, Tree.toList]
        · simp only [Tree.minD, Tree.toList, List.mem_append]
          exact Or.inl h2
      · exact h1
    simp only [Tree.deleteMin, Tree.toList, List.mem_append, List.mem_cons] at hx
    rcases hx with hx | hx | hx
    · exact iha b c bl x hx
    · rw [hx]
      exact hL _ hmem
    · exact lt_trans (hL _ hmem) (hR x hx)

theorem removeLevel_mem : ∀ (t : Tree) (p : ℚ), ∀ x ∈ (t.removeLevel p).toList, x ∈ t.toList := by
  intro t p
  induction t with
  | nil => intro x hx; simpa [Tree.removeLevel] using hx
  | node l v r ihl ihr =>
    intro x hx
    simp only [Tree.removeLevel] at hx
    by_cases h1 : p < v.price
    · rw [if_pos h1] at hx
      simp only [Tree.toList, List.mem_append, List.mem_cons] at hx ⊢
      rcases hx with hx | hx | hx
      · exact Or.inl (ihl x hx)
      · tauto
      · tauto
    · rw [if_neg h1] at hx
      by_cases h2 : v.price < p
      · rw [if_pos h2] at hx
        simp only [Tree.toList, List.mem_append, List.mem_cons] at hx ⊢
        rcases hx with hx | hx | hx
        · tauto
        · tauto
        · exact Or.inr (Or.inr (ihr x hx))
      · rw [if_neg h2] at hx
        cases l with
        | nil =>
          cases r with
          | nil => simp [Tree.toList] at hx
          | node rl rv rr =>
            simp only [Tree.toList, List.mem_append, List.mem_cons] at hx ⊢
            tauto
        | node ll lv lr =>
          cases r with
          | nil =>
            simp only [Tree.toList, List.mem_append, List.mem_cons] at hx ⊢
            tauto
          | node rl rv rr =>
            simp only [Tree.toList, List.mem_append, List.mem_cons] at hx ⊢
            rcases hx with hx | hx | hx
            · tauto
            · rcases minD_mem rl rv with h3 | h3
              · rw [hx, h3]
                tauto
              · rw [hx]
                exact Or.inr (Or.inr (Or.inl h3))
            · have h4 := deleteMin_mem (Tree.node rl rv rr) x hx
              simp only [Tree.toList, List.mem_append, List.mem_cons] at h4
              tauto

theorem removeLevel_bst : ∀ (t : Tree) (p : ℚ), t.bst = true → (t.removeLevel p).bst = true := by
  intro t p
  induction t with
  | nil => intro h; exact h
  | node l v r ihl ihr =>
    intro hb
    rw [bst_node_iff] at hb
    obtain ⟨hL, hR, bl, br⟩ := hb
    simp only [Tree.removeLevel]
    by_cases h1 : p < v.price
    · rw [if_pos h1, bst_node_iff]
      exact ⟨fun x hx => hL x (removeLevel_mem l p x hx), hR, ihl bl, br⟩
    · rw [if_neg h1]
      by_cases h2 : v.price < p
      · rw [if_pos h2, bst_node_iff]
        exact ⟨hL, fun x hx => hR x (removeLevel_mem r p x hx), bl, ihr br⟩
      · rw [if_neg h2]
        cases l with
        | nil =>
          cases r with
          | nil => exact bl
          | node rl rv rr => exact br
        | node ll lv lr =>
          cases r with
          | nil => exact bl
          | node rl rv rr =>
            have hmem : rl.minD rv ∈ (Tree.node rl rv rr).toList := by
              rcases minD_mem rl rv with h3 | h3
              · simp [h3, Tree.toList]
              · simp only [Tree.toList, List.mem_append]
                exact Or.inl h3
            rw [bst_node_iff]
            refine ⟨?_, ?_, bl, deleteMin_bst _ br⟩
            · intro x hx
              exact lt_trans (hL x hx) (hR _ hmem)
            · intro x hx
              have := minD_gt_deleteMin rl rv rr br x hx
              simpa [Tree.minD] using this

theorem findLevel_none_big (p : ℚ) :
    ∀ t : Tree, (∀ x ∈ t.toList, p < x.price) → t.findLevel p = none := by
  intro t
  induction t with
  | nil => intro _; rfl
  | node l v r ihl ihr =>
    intro h
    have hv : p < v.price := h v (by simp [Tree.toList])
    simp only [Tree.findLevel, if_pos hv]
    refine ihl ?_
    intro x hx
    exact h x (by simp only [Tree.toList, List.mem_append]; exact Or.inl hx)

theorem findLevel_none_small (p : ℚ) :
    ∀ t : Tree, (∀ x ∈ t.toList, x.price < p) → t.findLevel p = none := by
  intro t
  induction t with
  | nil => intro _; rfl
  | node l v r ihl ihr =>
    intro h
    have hv : v.price < p := h v (by simp [Tree.toList])
    simp only [Tree.findLevel, if_neg (asymm hv), if_pos hv]
    refine ihr ?_
    intro x hx
    exact h x (by simp only [Tree.toList, List.mem_append, List.mem_cons]; tauto)

theorem removeLevel_find_none : ∀ (t : Tree) (p : ℚ), t.bst = true →
    (t.removeLevel p).findLevel p = none := by
  intro t p
  induction t with
  | nil => intro _; rfl
  | node l v r ihl ihr =>
    intro hb
    rw [bst_node_iff] at hb
    obtain ⟨hL, hR, bl, br⟩ := hb
    simp only [Tree.removeLevel]
    by_cases h1 : p < v.price
    · rw [if_pos h1]
      simp only [Tree.findLevel, if_pos h1]
      exact ihl bl
    · rw [if_neg h1]
      by_cases h2 : v.price < p
      · rw [if_pos h2]
        simp only [Tree.findLevel, if_neg h1, if_pos h2]
        exact ihr br
      · rw [if_neg h2]
        have hvp : v.price = p := le_antisymm (not_lt.mp h1) (not_lt.mp h2)
        cases l with
        | nil =>
          cases r with
          | nil => rfl
          | node rl rv rr =>
            refine findLevel_none_big p _ ?_
            intro x hx
            rw [← hvp]
            exact hR x hx
        | node ll lv lr =>
          cases r with
          | nil =>
            refine findLevel_none_small p (Tree.node ll lv lr) ?_
            intro x hx
            rw [← hvp]
            exact hL x hx
          | node rl rv rr =>
            have hmem : rl.minD rv ∈ (Tree.node rl rv rr).toList := by
              rcases minD_mem rl rv with h3 | h3
              · simp [h3, Tree.toList]
              · simp only [Tree.toList, List.mem_append]
                exact Or.inl h3
            have hlt : p < (rl.minD rv).price := by
              rw [← hvp]
              exact hR _ hmem
            simp only [Tree.findLevel, if_pos hlt]
            refine findLevel_none_small p (Tree.node ll lv lr) ?_
            intro x hx
            rw [← hvp]
            exact hL x hx

theorem findLevel_modify (p : ℚ) (f : Level → Level)
    (hf : ∀ L, L.price = p → (f L).price = L.price) :
    ∀ t : Tree, (t.modify p f).findLevel p = (t.findLevel p).map f := by
  intro t
  induction t with
  | nil => rfl
  | node l v r ihl ihr =>
    simp only [Tree.modify]
    by_cases h1 : p < v.price
    · rw [if_pos h1]
      simp only [Tree.findLevel, if_pos h1]
      exact ihl
    · rw [if_neg h1]
      by_cases h2 : v.price < p
      · rw [if_pos h2]
        simp only [Tree.findLevel, if_neg h1, if_pos h2]
        exact ihr
      · rw [if_neg h2]
        have hvp : v.price = p := le_antisymm (not_lt.mp h1) (not_lt.mp h2)
        have hfp : (f v).price = v.price := hf v hvp
        simp only [Tree.findLevel, hfp, if_neg h1, if_neg h2, Option.map_some']

theorem modify_mem (p : ℚ) (f : Level → Level) :
    ∀ t : Tree, ∀ x ∈ (t.modify p f).toList,
      x ∈ t.toList ∨ ∃ y, y ∈ t.toList ∧ y.price = p ∧ x = f y := by
  intro t
  induction t with
  | nil => intro x hx; simp [Tree.modify, Tree.toList] at hx
  | node l v r ihl ihr =>
    intro x hx
    simp only [Tree.modify] at hx
    by_cases h1 : p < v.price
    · rw [if_pos h1] at hx
      simp only [Tree.toList, List.mem_append, List.mem_cons] at hx ⊢
      rcases hx with hx | hx | hx
      · rcases ihl x hx with h2 | ⟨y, hy, hyp, he⟩
        · tauto
        · exact Or.inr ⟨y, by tauto, hyp, he⟩
      · tauto
      · tauto
    · rw [if_neg h1] at hx
      by_cases h2 : v.price < p
      · rw [if_pos h2] at hx
        simp only [Tree.toList, List.mem_append, List.mem_cons] at hx ⊢
        rcases hx with hx | hx | hx
        · tauto
        · tauto
        · rcases ihr x hx with h3 | ⟨y, hy, hyp, he⟩
          · tauto
          · exact Or.inr ⟨y, by tauto, hyp, he⟩
      · rw [if_neg h2] at hx
        have hvp : v.price = p := le_antisymm (not_lt.mp h1) (not_lt.mp h2)
        simp only [Tree.toList, List.mem_append, List.mem_cons] at hx ⊢
        rcases hx with hx | hx | hx
        · tauto
        · exact Or.inr ⟨v, by tauto, hvp, hx⟩
        · tauto

theorem modify_bst (p : ℚ) (f : Level → Level)
    (hf : ∀ L, L.price = p → (f L).price = L.price) :
    ∀ t : Tree, t.bst = true → (t.modify p f).bst = true := by
  intro t
  induction t with
  | nil => intro h; exact h
  | node l v r ihl ihr =>
    intro hb
    rw [bst_node_iff] at hb
    obtain ⟨hL, hR, bl, br⟩ := hb
    simp only [Tree.modify]
    by_cases h1 : p < v.price
    · rw [if_pos h1, bst_node_iff]
      refine ⟨?_, hR, ihl bl, br⟩
      intro x hx
      rcases modify_mem p f l x hx with h2 | ⟨y, hy, hyp, he⟩
      · exact hL x h2
      · rw [he, hf y hyp]
        exact hL y hy
    · rw [if_neg h1]
      by_cases h2 : v.price < p
      · rw [if_pos h2, bst_node_iff]
        refine ⟨hL, ?_, bl, ihr br⟩
        intro x hx
        rcases modify_mem p f r x hx with h3 | ⟨y, hy, hyp, he⟩
        · exact hR x h3
        · rw [he, hf y hyp]
          exact hR y hy
      · rw [if_neg h2]
        have hvp : v.price = p := le_antisymm (not_lt.mp h1) (not_lt.mp h2)
        have hfp : (f v).price = v.price := hf v hvp
        rw [bst_node_iff]
        refine ⟨fun x hx => ?_, fun x hx => ?_, bl, br⟩
        · rw [hfp]; exact hL x hx
        · rw [hfp]; exact hR x hx

theorem bst_pairwise (t : Tree) (hb : t.bst = true) :
    t.toList.Pairwise (fun a b => a.price < b.price) := by
  induction t with
  | nil => simp [Tree.toList]
  | node l v r ihl ihr =>
    rw [bst_node_iff] at hb
    obtain ⟨hL, hR, bl, br⟩ := hb
    simp only [Tree.toList]
    rw [List.pairwise_append]
    refine ⟨ihl bl, ?_, ?_⟩
    · rw [List.pairwise_cons]
      exact ⟨fun b hb' => hR b hb', ihr br⟩
    · intro a ha b hb'
      rcases List.mem_cons.mp hb' with rfl | hb2
      · exact hL a ha
      · exact lt_trans (hL a ha) (hR b hb2)

/-! ## C8 -/

/-- C8: (i) the in-order successor `next_level` always returns a level of
strictly greater price than the price it is asked about, so repeated calls
starting from the side's minimum visit levels in strictly increasing price
order; (ii) `register_order` preserves the search-tree invariant; (iii)
`remove_level` preserves it; (iv) under the invariant no two levels of one
side share a price. -/
theorem C8_bst_monotone :
    (∀ (t : Tree) (p : ℚ) (l' : Level),
      t.bst = true → t.nextLevel p = some l' → p < l'.price)
  ∧ (∀ (s : BookSide) (o : Order) (b : Bool) (s' : BookSide),
      s.root.bst = true → s.register_order o b = some s' → s'.root.bst = true)
  ∧ (∀ (t : Tree) (p : ℚ), t.bst = true → (t.removeLevel p).bst = true)
  ∧ (∀ t : Tree, t.bst = true →
      t.toList.Pairwise (fun a b => a.price ≠ b.price)) := by
  refine ⟨fun t p l' hb h => nextLevel_gt t p l' hb h,
    fun s o b s' hb h => register_order_bst s o b s' hb h,
    fun t p hb => removeLevel_bst t p hb,
    fun t hb => ?_⟩
  exact (bst_pairwise t hb).imp (fun h => ne_of_lt h)

/-- C8 witness: in the two-level ask tree {9, 11} the successor of 9 is the
level at 11, of strictly greater price. -/
theorem C8_bst_monotone_witness :
    (9 : ℚ) < (⟨11, false, 10, []⟩ : Level).price :=
  C8_bst_monotone.1
    (Tree.node Tree.nil ⟨9, false, 10, []⟩ (Tree.node Tree.nil ⟨11, false, 10, []⟩ Tree.nil))
    9 ⟨11, false, 10, []⟩ (by decide) (by decide)

/-! ## C6 -/

theorem sideOf_emit (bk : OrderBook) (e : Event) (b : Bool) :
    ((bk.emit e).sideOf b) = bk.sideOf b := by
  cases b <;> rfl

theorem sideOf_updRoot_root (bk : OrderBook) (b : Bool) (f : Tree → Tree) :
    ((bk.updRoot b f).sideOf b).root = f (bk.sideOf b).root := by
  cases b <;> rfl

theorem sideOf_updRoot_total (bk : OrderBook) (b : Bool) (f : Tree → Tree) :
    ((bk.updRoot b f).sideOf b).total_qty = (bk.sideOf b).total_qty := by
  cases b <;> rfl

theorem tradeLoop_eq_walk : ∀ (q : List Order) (m tot : ℤ),
    tradeLoop m tot q =
      ⟨(levelWalk m q).1, (levelWalk m q).2.1,
        tot - (levelWalk m q).1, (levelWalk m q).2.2⟩ := by
  intro q
  induction q with
  | nil => intro m tot; simp [tradeLoop, levelWalk]
  | cons c rest ih =>
    intro m tot
    simp only [tradeLoop, levelWalk]
    by_cases h1 : 0 < m
    · rw [if_pos h1, if_pos h1]
      by_cases h2 : c.qty ≤ m
      · rw [if_pos h2, if_pos h2]
        rw [ih (m - c.qty) (tot - c.qty)]
        simp only [LoopRes.mk.injEq, true_and, and_true]
        ring
      · rw [if_neg h2, if_neg h2]
    · rw [if_neg h1, if_neg h1]
      simp [LoopRes.mk.injEq]

/-- C6: `trade_at_level` implements the claim's level-exhaustive walk: the
matching loop agrees with the walk exactly as the claim words it
(`levelWalk`) and the level's `total_qty` drops by the traded total; the
returned order carries the walk's remaining quantity; the traded total is
subtracted from the `total_qty` of the side the level rests on; the level is
still found in that side's tree afterwards exactly when its new total is not
zero (removed exactly when it reached zero); and exactly one aggregate trade
event reports the level's price and the traded total. -/
theorem C6_trade_at_level_correct (bk : OrderBook) (o : Order) (lvl : Level)
    (_hq : 0 < o.qty) (_hne : lvl.queue ≠ [])
    (hb : (bk.sideOf lvl.is_bid).root.bst = true)
    (hc : (bk.sideOf lvl.is_bid).root.containsP lvl.price = true) :
    tradeLoop o.qty lvl.total_qty lvl.queue =
      ⟨(levelWalk o.qty lvl.queue).1, (levelWalk o.qty lvl.queue).2.1,
        lvl.total_qty - (levelWalk o.qty lvl.queue).1, (levelWalk o.qty lvl.queue).2.2⟩
  ∧ (bk.trade_at_level o lvl).2.qty = (levelWalk o.qty lvl.queue).2.1
  ∧ ((bk.trade_at_level o lvl).1.sideOf lvl.is_bid).total_qty =
      (bk.sideOf lvl.is_bid).total_qty - (levelWalk o.qty lvl.queue).1
  ∧ (bk.trade_at_level o lvl).1.events =
      bk.events ++ [Event.trade (some lvl.price) (levelWalk o.qty lvl.queue).1]
  ∧ (((bk.trade_at_level o lvl).1.sideOf lvl.is_bid).root.containsP lvl.price = true ↔
      lvl.total_qty - (levelWalk o.qty lvl.queue).1 ≠ 0) := by
  have hbridge := tradeLoop_eq_walk lvl.queue o.qty lvl.total_qty
  have hlt : (tradeLoop o.qty lvl.total_qty lvl.queue).level_total =
      lvl.total_qty - (levelWalk o.qty lvl.queue).1 := by rw [hbridge]
  have hf : ∀ (g : Level → Level), (∀ L, (g L).price = lvl.price) →
      ∀ L : Level, L.price = lvl.price → (g L).price = L.price := by
    intro g hg L hL
    rw [hg L, hL]
  refine ⟨hbridge, ?_, ?_, ?_, ?_⟩
  · simp [OrderBook.trade_at_level, hbridge]
  · simp only [OrderBook.trade_at_level]
    rw [sideOf_emit]
    split
    · rw [sideOf_updRoot_total, updSide_sideOf]
      simp [sideOf_updRoot_total, hbridge]
    · rw [updSide_sideOf]
      simp [sideOf_updRoot_total, hbridge]
  · simp only [OrderBook.trade_at_level, OrderBook.emit]
    split <;> simp [updRoot_events, updSide_events, hbridge]
  · by_cases hz : (tradeLoop o.qty lvl.total_qty lvl.queue).level_total = 0
    · have hroot : ((bk.trade_at_level o lvl).1.sideOf lvl.is_bid).root =
          (((bk.sideOf lvl.is_bid).root.modify lvl.price
            (fun _ => { lvl with total_qty := (tradeLoop o.qty lvl.total_qty lvl.queue).level_total,
                                 queue := (tradeLoop o.qty lvl.total_qty lvl.queue).queue })).removeLevel
            lvl.price) := by
        simp only [OrderBook.trade_at_level]
        rw [sideOf_emit, if_pos hz, sideOf_updRoot_root, updSide_sideOf]
        rw [sideOf_updRoot_root]
      have hbst2 := modify_bst lvl.price
        (fun _ => { lvl with total_qty := (tradeLoop o.qty lvl.total_qty lvl.queue).level_total,
                             queue := (tradeLoop o.qty lvl.total_qty lvl.queue).queue })
        (hf _ (fun _ => rfl)) (bk.sideOf lvl.is_bid).root hb
      have hnone := removeLevel_find_none
        ((bk.sideOf lvl.is_bid).root.modify lvl.price
          (fun _ => { lvl with total_qty := (tradeLoop o.qty lvl.total_qty lvl.queue).level_total,
                               queue := (tradeLoop o.qty lvl.total_qty lvl.queue).queue }))
        lvl.price hbst2
      have hz' : lvl.total_qty - (levelWalk o.qty lvl.queue).1 = 0 := by
        rw [← hlt]; exact hz
      rw [hroot]
      simp [Tree.containsP, hnone, hz']
    · have hroot : ((bk.trade_at_level o lvl).1.sideOf lvl.is_bid).root =
          ((bk.sideOf lvl.is_bid).root.modify lvl.price
            (fun _ => { lvl with total_qty := (tradeLoop o.qty lvl.total_qty lvl.queue).level_total,
                                 queue := (tradeLoop o.qty lvl.total_qty lvl.queue).queue })) := by
        simp only [OrderBook.trade_at_level]
        rw [sideOf_emit, if_neg hz, updSide_sideOf]
        rw [sideOf_updRoot_root]
      have hfind := findLevel_modify lvl.price
        (fun _ => { lvl with total_qty := (tradeLoop o.qty lvl.total_qty lvl.queue).level_total,
                             queue := (tradeLoop o.qty lvl.total_qty lvl.queue).queue })
        (hf _ (fun _ => rfl)) (bk.sideOf lvl.is_bid).root
      have hz' : lvl.total_qty - (levelWalk o.qty lvl.queue).1 ≠ 0 := by
        rw [← hlt]; exact hz
      rw [hroot]
      simp only [Tree.containsP] at hc ⊢
      rw [hfind]
      cases hfl : (bk.sideOf lvl.is_bid).root.findLevel lvl.price with
      | none => rw [hfl] at hc; simp at hc
      | some L => simp [hz']

/-- C6 witness: a market-style fill of 3 against an ask level holding a
single resting order of quantity 5 at price 10 prints one aggregate trade of
quantity 3 at price 10. -/
theorem C6_trade_at_level_correct_witness :
    ((⟨⟨.nil, true, 0⟩,
        ⟨.node .nil ⟨10, false, 5, [⟨true, false, some 10, 5, 1⟩]⟩ .nil, false, 5⟩,
        []⟩ : OrderBook).trade_at_level ⟨true, true, some 12, 3, 2⟩
        ⟨10, false, 5, [⟨true, false, some 10, 5, 1⟩]⟩).1.events =
      [Event.trade (some 10) 3] := by
  have h := (C6_trade_at_level_correct
    ⟨⟨.nil, true, 0⟩,
      ⟨.node .nil ⟨10, false, 5, [⟨true, false, some 10, 5, 1⟩]⟩ .nil, false, 5⟩, []⟩
    ⟨true, true, some 12, 3, 2⟩ ⟨10, false, 5, [⟨true, false, some 10, 5, 1⟩]⟩
    (by decide) (by decide) (by decide) (by decide)).2.2.2.1
  rw [h]
  decide

/-! ## C9 -/

/-- C9: the parser classifies by binary token comparison after lowercasing.
Whenever the (lowercased) line has at least two tokens, the last token
parses as an integer, and — only if the first token is exactly `"limit"` — a
third token exists and parses as a number, then parsing succeeds: the order
is a limit order iff the first token is exactly `"limit"` and a buy iff the
second is exactly `"buy"`.  Any other keyword, however misspelled, is never
rejected: it silently yields a market order (with no price) or a sell. -/
theorem C9_keyword_classification (s : String) (ts : ℕ) (t0 t1 : String)
    (rest : List String) (q : ℤ)
    (htok : tokens s = t0 :: t1 :: rest)
    (hqty : (t0 :: t1 :: rest).getLast?.bind intOfTok = some q)
    (hpr : (t0 == "limit") = true → ∃ t2 tl v, rest = t2 :: tl ∧ numQ t2 = some v) :
    ∃ o : Order, Order.ofQuote s ts = some o ∧
      o.is_limit = (t0 == "limit") ∧
      o.is_buy = (t1 == "buy") ∧
      o.qty = q ∧
      ((t0 == "limit") = false → o.price = none ∧ o.is_limit = false) := by
  unfold Order.ofQuote
  rw [htok]
  cases hb : (t0 == "limit") with
  | false =>
    refine ⟨⟨false, t1 == "buy", none, q, ts⟩, ?_, rfl, rfl, rfl,
      fun _ => ⟨rfl, rfl⟩⟩
    simp only [List.getLast?_cons_cons] at hqty
    simp [quoteOfTokens, hb, hqty]
  | true =>
    obtain ⟨t2, tl, v, hrest, hv⟩ := hpr hb
    subst hrest
    refine ⟨⟨true, t1 == "buy", some v, q, ts⟩, ?_, rfl, rfl, rfl,
      fun hff => absurd hff (by simp)⟩
    simp only [List.getLast?_cons_cons] at hqty
    simp [quoteOfTokens, hb, hv, hqty]

/-- C9 witness: the misspelled line `"limmit buy 10 5"` is not rejected but
silently parsed as a *market* buy of quantity 5 with no price. -/
theorem C9_keyword_classification_witness :
    ∃ o : Order, Order.ofQuote "limmit buy 10 5" 1 = some o ∧
      o.is_limit = ("limmit" == "limit") ∧
      o.is_buy = ("buy" == "buy") ∧
      o.qty = 5 ∧
      (("limmit" == "limit") = false → o.price = none ∧ o.is_limit = false) :=
  C9_keyword_classification "limmit buy 10 5" 1 "limmit" "buy" ["10", "5"] 5
    (by decide) (by decide) (fun h => absurd h (by decide))

end Eng
